import Mathlib

/-!
Shallow embedding of the resume-cli repository (a Node.js terminal resume
viewer) and verification of its specification claims.

Strings are modelled as `List Char`; JS numbers that hold integer values are
modelled as `Int` (terminal widths, parsed percentages).  JS regular
expressions over the ASCII-centric inputs of this program are modelled by
explicit character scanners with the same leftmost-then-greedy semantics.
-/

namespace ResumeCli

/-- JS `\s` on the character ranges this program handles (space, tab and the
ASCII line/page separators).  Used by `trim`, `split(/\s+/)` and the
whitespace parts of the contact regexes. -/
def isSpaceChar (c : Char) : Bool :=
  c = ' ' || c = '\t' || c = '\n' || c = '\r' || c = '\x0b' || c = '\x0c'

/-- Characters that the JS regex `.` does not match (line terminators). -/
def isLineTermChar (c : Char) : Bool :=
  c = '\n' || c = '\r' || c = ' ' || c = ' '

/-- JS `\w`: ASCII letters, digits and underscore. -/
def isWordChar (c : Char) : Bool :=
  c.isAlpha || c.isDigit || c = '_'

/-- `String.prototype.trim`: strip whitespace from both ends. -/
def jsTrim (l : List Char) : List Char :=
  ((l.dropWhile isSpaceChar).reverse.dropWhile isSpaceChar).reverse

/-- Worker for `"...".split(/\s+/)`.  `skipping` is true while inside a run of
whitespace that has already emitted its token; `acc` holds the current token
reversed. -/
def splitWsF (l : List Char) (skipping : Bool) (acc : List Char) :
    List (List Char) :=
  match l with
  | [] => if skipping then [[]] else [acc.reverse]
  | c :: rest =>
    if isSpaceChar c then
      if skipping then splitWsF rest true []
      else acc.reverse :: splitWsF rest true []
    else splitWsF rest false (c :: acc)

/-- JS `text.split(/\s+/)`: tokens between maximal whitespace runs; a leading
run contributes a leading empty token and a trailing run a trailing empty
token, exactly as in JS. -/
def jsSplitWs (l : List Char) : List (List Char) :=
  splitWsF l false []

/-- The nonempty whitespace-separated words of a string. -/
def jsWords (l : List Char) : List (List Char) :=
  (jsSplitWs l).filter (fun t => !t.isEmpty)

/-- Worker for `text.split(/\r?\n/)`. -/
def splitLinesAux : List Char → List Char → List (List Char)
  | [], acc => [acc.reverse]
  | '\r' :: '\n' :: rest, acc => acc.reverse :: splitLinesAux rest []
  | '\n' :: rest, acc => acc.reverse :: splitLinesAux rest []
  | c :: rest, acc => splitLinesAux rest (c :: acc)

/-- JS `text.split(/\r?\n/)` (a lone `\r` is not a separator). -/
def jsSplitLines (l : List Char) : List (List Char) :=
  splitLinesAux l []

/-- Does `hay` start with `need` (plain list comparison)? -/
def listStartsWith : List Char → List Char → Bool
  | _, [] => true
  | [], _ :: _ => false
  | c :: cs, d :: ds => c = d && listStartsWith cs ds

/-- JS `String.prototype.includes`: `need` occurs contiguously in `hay`. -/
def listContains (hay need : List Char) : Bool :=
  listStartsWith hay need ||
    match hay with
    | [] => false
    | _ :: t => listContains t need

/-- JS `toLowerCase` on the ASCII range (the only case mapping exercised). -/
def toLowerList (l : List Char) : List Char :=
  l.map Char.toLower

/-- JS `Array.prototype.map((x, index) => ...)` worker carrying the index. -/
def mapWithIndexGo (f : Nat → α → β) (i : Nat) : List α → List β
  | [] => []
  | x :: xs => f i x :: mapWithIndexGo f (i + 1) xs

/-- JS `Array.prototype.map` with the element index. -/
def mapWithIndex (f : Nat → α → β) (l : List α) : List β :=
  mapWithIndexGo f 0 l

/-- JS `Array.prototype.find((x, index) => ...)` worker carrying the index. -/
def findWithIdx (p : α → Nat → Bool) (i : Nat) : List α → Option α
  | [] => none
  | x :: xs => if p x i then some x else findWithIdx p (i + 1) xs

/-!
## `src/utils/formatting.js` — wrapCore, wrapText, sanitizeLine
-/

/-- Loop body of `wrapCore`: fold the word list keeping the current line
(`cur`, the JS `currentLine`); an empty `cur` is JS's falsy `''`. -/
def wrapCoreGo (width : Int) : List (List Char) → List Char → List (List Char)
  | [], cur => if cur.isEmpty then [] else [cur]
  | w :: ws, cur =>
    if cur.isEmpty then wrapCoreGo width ws w
    else if ((cur.length + 1 + w.length : Int) ≤ width) then
      wrapCoreGo width ws (cur ++ ' ' :: w)
    else cur :: wrapCoreGo width ws w

/-- `wrapCore(text, width)`: split on whitespace and re-join into lines of at
most `width` characters (a word longer than `width` stands alone). -/
def wrapCore (text : List Char) (width : Int) : List (List Char) :=
  wrapCoreGo width (jsSplitWs text) []

/-- The match `text.match(/^(\s*)([•\-])\s+(.*)$/)`: leading whitespace, a
bullet character, at least one whitespace character, then the rest of the
line, which `.` and `$` force to be free of line terminators and to extend to
the end of the string.  Returns the three capture groups. -/
def bulletDecomp (text : List Char) : Option (List Char × Char × List Char) :=
  let sp := text.takeWhile isSpaceChar
  match text.drop sp.length with
  | b :: r =>
    if b = '•' || b = '-' then
      let sp2 := r.takeWhile isSpaceChar
      let rest := r.drop sp2.length
      if !sp2.isEmpty && rest.all (fun c => !isLineTermChar c) then
        some (sp, b, rest)
      else none
    else none
  | [] => none

/-- `wrapText(text, width, unicode)`: a bullet line is wrapped with hanging
indent (continuation lines get spaces of the bullet-prefix length), anything
else goes through `wrapCore` unchanged. -/
def wrapText (text : List Char) (width : Int) (unicode : Bool) :
    List (List Char) :=
  match bulletDecomp text with
  | some (sp, _, rest) =>
    let b := if unicode then '•' else '-'
    let pfx := sp ++ [b, ' ']
    mapWithIndex
      (fun index line =>
        if index = 0 then pfx ++ line
        else List.replicate pfx.length ' ' ++ line)
      (wrapCore rest (width - pfx.length))
  | none => wrapCore text width

/-- `.replace(/•/g, '-')`. -/
def replBullet (c : Char) : Char := if c = '•' then '-' else c

/-- `.replace(/[–—]/g, '-')` (en and em dash). -/
def replDash (c : Char) : Char := if c = '–' || c = '—' then '-' else c

/-- `.replace(/┌|┐|└|┘|─|│/g, '-')` (box-drawing characters). -/
def replBox (c : Char) : Char :=
  if c = '┌' || c = '┐' || c = '└' || c = '┘' || c = '─' || c = '│' then '-'
  else c

/-- `.replace(/[""]/g, '"')`: in the source file this character class holds
two plain ASCII double quotes, so the step maps `"` to `"`. -/
def replDQuote (c : Char) : Char := if c = '"' then '"' else c

/-- `.replace(/['']/g, "'")`: likewise the class holds two plain ASCII
apostrophes, so the step maps an apostrophe to itself. -/
def replSQuote (c : Char) : Char := if c = '\'' then '\'' else c

/-- `sanitizeLine(line, unicode)`: identity when Unicode is supported,
otherwise the five chained global character replacements. -/
def sanitizeLine (line : List Char) (unicode : Bool) : List Char :=
  if unicode then line
  else
    (((((line.map replBullet).map replDash).map replBox).map
        replDQuote).map replSQuote)

/-- The composed per-character substitution of `sanitizeLine`'s five chained
replaces. -/
def sanChar (c : Char) : Char :=
  replSQuote (replDQuote (replBox (replDash (replBullet c))))

/-!
## `src/utils/config.js` — getWidth
-/

/-- Digit value of a decimal digit character. -/
def digitVal (c : Char) : Nat := c.toNat - '0'.toNat

/-- Value of a (nonempty) decimal digit list, most significant first. -/
def decValue (ds : List Char) : Nat :=
  ds.foldl (fun acc c => acc * 10 + digitVal c) 0

/-- Hex digit test for `parseInt`'s automatic `0x` radix detection. -/
def isHexDigitChar (c : Char) : Bool :=
  c.isDigit || ('a' ≤ c && c ≤ 'f') || ('A' ≤ c && c ≤ 'F')

/-- Hex digit value. -/
def hexVal (c : Char) : Nat :=
  if c.isDigit then c.toNat - '0'.toNat
  else if 'a' ≤ c && c ≤ 'f' then c.toNat - 'a'.toNat + 10
  else c.toNat - 'A'.toNat + 10

/-- Value of a (nonempty) hex digit list, most significant first. -/
def hexValue (ds : List Char) : Nat :=
  ds.foldl (fun acc c => acc * 16 + hexVal c) 0

/-- JS `parseInt(s)` (no radix argument): skip leading whitespace, optional
sign, automatic base-16 on a `0x`/`0X` body, otherwise the maximal leading
run of decimal digits; `none` models `NaN`.  Exact integers stand in for the
JS float result. -/
def parseIntJS (s : List Char) : Option Int :=
  let t := s.dropWhile isSpaceChar
  let signed : Bool × List Char :=
    match t with
    | '-' :: r => (true, r)
    | '+' :: r => (false, r)
    | r => (false, r)
  let body := signed.2
  let mag : Option Nat :=
    match body with
    | '0' :: x :: r =>
      if x = 'x' || x = 'X' then
        let hs := r.takeWhile isHexDigitChar
        if hs.isEmpty then none else some (hexValue hs)
      else
        let ds := body.takeWhile Char.isDigit
        if ds.isEmpty then none else some (decValue ds)
    | _ =>
      let ds := body.takeWhile Char.isDigit
      if ds.isEmpty then none else some (decValue ds)
  mag.map (fun n => if signed.1 then -(n : Int) else (n : Int))

/-- Result of `getWidth`. -/
structure WidthConfig where
  contentWidth : Int
  percentage : Int
deriving DecidableEq

/-- `getWidth(flags, terminalCols)`: `widthPerc` is the flag value, given as
`some s` when the flag carried a string value and `none` when it was absent
or a bare boolean flag (`parseInt` yields `NaN` on `undefined`/`true`, so
both default).  `percentage = parseInt(flags.widthPerc) || 95`,
`contentWidth = Math.min(Math.floor(terminalCols * percentage / 100), 120)`. -/
def getWidth (widthPerc : Option (List Char)) (terminalCols : Nat) :
    WidthConfig :=
  let percentage : Int :=
    match widthPerc with
    | none => 95
    | some s =>
      match parseIntJS s with
      | none => 95
      | some n => if n = 0 then 95 else n
  let maxWidth : Int := Int.fdiv ((terminalCols : Int) * percentage) 100
  { contentWidth := min maxWidth 120, percentage := percentage }

/-- The percentage rule exactly as the specification claim words it: the
user-supplied percentage, defaulting to 95 whenever the flag is absent or
does not parse to a non-zero integer. -/
def specPercentage (widthPerc : Option (List Char)) : Int :=
  match widthPerc with
  | none => 95
  | some s =>
    match parseIntJS s with
    | none => 95
    | some n => if n = 0 then 95 else n

/-!
## `src/utils/data.js` — contact regex scanners and parseTextToJson
-/

/-- Characters of the email local part class `[\w.+-]`. -/
def isEmailLocalChar (c : Char) : Bool :=
  isWordChar c || c = '.' || c = '+' || c = '-'

/-- Characters of the email domain class `[\w.-]`. -/
def isEmailDomChar (c : Char) : Bool :=
  isWordChar c || c = '.' || c = '-'

/-- Attempt the email pattern `([\w.+-]+@[\w.-]+\.[A-Za-z]{2,})` anchored at
the start of `cs`, with the regex's greedy backtracking semantics: the local
part is the maximal `[\w.+-]` run (forced, since `@` is outside the class),
the domain part is the longest prefix of the `[\w.-]` run that leaves a `.`
followed by at least two letters, and the final letter run is maximal. -/
def emailCapture (cs : List Char) : Option (List Char) :=
  let loc := cs.takeWhile isEmailLocalChar
  if loc.isEmpty then none
  else
    match cs.drop loc.length with
    | '@' :: rest2 =>
      let domrun := rest2.takeWhile isEmailDomChar
      let cands := (List.range domrun.length).filter fun j =>
        decide (1 ≤ j) && rest2.getD j ' ' = '.' &&
          decide (2 ≤ ((rest2.drop (j + 1)).takeWhile Char.isAlpha).length)
      match cands.getLast? with
      | some j =>
        some (loc ++ '@' :: (rest2.take j ++
          '.' :: (rest2.drop (j + 1)).takeWhile Char.isAlpha))
      | none => none
    | _ => none

/-- `contactLine.match(/([\w.+-]+@[\w.-]+\.[A-Za-z]{2,})/)`: the engine tries
each start position left to right. -/
def emailSearch : List Char → Option (List Char)
  | [] => emailCapture []
  | c :: rest =>
    match emailCapture (c :: rest) with
    | some r => some r
    | none => emailSearch rest

/-- Characters of the phone body class `[\d \-]`. -/
def isPhoneChar (c : Char) : Bool :=
  c.isDigit || c = ' ' || c = '-'

/-- The part `\d[\d \-]{6,}\d` of the phone pattern anchored at the start of
`cs`: a digit, then the greedy class run backtracked so that the next
character is again a digit at class-run offset at least 6. -/
def phoneBody (cs : List Char) : Option (List Char) :=
  match cs with
  | c :: rest =>
    if c.isDigit then
      let run := rest.takeWhile isPhoneChar
      let cands := (List.range run.length).filter fun k =>
        decide (6 ≤ k) && (run.getD k ' ').isDigit
      match cands.getLast? with
      | some k => some (c :: rest.take (k + 1))
      | none => none
    else none
  | [] => none

/-- The phone pattern `(\+?\d[\d \-]{6,}\d)` anchored at the start of `cs`:
an optional leading `+` (backtracking it cannot help, since `+` is not a
digit). -/
def phoneCapture (cs : List Char) : Option (List Char) :=
  match cs with
  | '+' :: rest => (phoneBody rest).map (fun r => '+' :: r)
  | _ => phoneBody cs

/-- `contactLine.match(/(\+?\d[\d \-]{6,}\d)/)`. -/
def phoneSearch : List Char → Option (List Char)
  | [] => phoneCapture []
  | c :: rest =>
    match phoneCapture (c :: rest) with
    | some r => some r
    | none => phoneSearch rest

/-- The tail `\s*:?\s*([^\s]+)` of the LinkedIn pattern matched against the
text following a `LinkedIn` literal, with the regex's backtracking: when a
`:` is followed only by whitespace the optional `:?` is given back and the
capture becomes the `:` itself. -/
def linkedinTail (rest : List Char) : Option (List Char) :=
  match rest.dropWhile isSpaceChar with
  | [] => none
  | ':' :: r2 =>
    match r2.dropWhile isSpaceChar with
    | [] => some [':']
    | r3 => some (r3.takeWhile (fun c => !isSpaceChar c))
  | r1 => some (r1.takeWhile (fun c => !isSpaceChar c))

/-- `contactLine.match(/LinkedIn\s*:?\s*([^\s]+)/i)`: find the leftmost
case-insensitive `LinkedIn` whose tail admits the rest of the pattern. -/
def linkedinSearch : List Char → Option (List Char)
  | [] => none
  | c :: rest =>
    if listStartsWith (toLowerList (c :: rest)) (String.toList "linkedin") then
      match linkedinTail ((c :: rest).drop 8) with
      | some r => some r
      | none => linkedinSearch rest
    else linkedinSearch rest

/-- The contact object built by `parseTextToJson`; `none` models `null`. -/
structure Contact where
  email : Option (List Char)
  phone : Option (List Char)
  linkedin : Option (List Char)
deriving DecidableEq

/-- An education entry of a structured (JSON-side) education section. -/
structure EduItem where
  institution : List Char
  location : Option (List Char)
  degree : Option (List Char)
  period : Option (List Char)
  gpa : Option (List Char)
  score : Option (List Char)
deriving DecidableEq

/-- A named category of a structured skills section. -/
structure SkillCategory where
  name : List Char
  skills : List (List Char)
deriving DecidableEq

/-- A project of a structured projects section. -/
structure Project where
  name : List Char
  subtitle : List Char
  stack : List (List Char)
  highlights : List (List Char)
deriving DecidableEq

/-- An entry of a structured achievements section. -/
structure Achievement where
  name : List Char
  date : Option (List Char)
deriving DecidableEq

/-- A resume section as a JS object: a title plus whichever payload
properties happen to be present.  `parseTextToJson` populates only `lines`;
sections loaded from `resume.json` populate one of the other four. -/
structure Section where
  title : List Char
  lines : Option (List (List Char)) := none
  items : Option (List EduItem) := none
  categories : Option (List SkillCategory) := none
  projects : Option (List Project) := none
  achievements : Option (List Achievement) := none
deriving DecidableEq

/-- The in-memory resume record. -/
structure ResumeRecord where
  name : List Char
  location : List Char
  contact : Contact
  sections : List Section
deriving DecidableEq

/-- Case-insensitive test that `l` starts with the (lowercase) keyword `kw`
followed by a word boundary, i.e. by the end of the string or a non-word
character — the meaning of `/^kw\b/i.test(l)`. -/
def ciWordPre (l : List Char) (kw : List Char) : Bool :=
  let ll := toLowerList l
  listStartsWith ll kw &&
    match ll.drop kw.length with
    | [] => true
    | c :: _ => !isWordChar c

/-- `isSectionHeader(line)`:
`/^(Education|Technical Skills|Projects|Certifications|Certifications and Achievements)\b/i.test(line.trim())`. -/
def isSectionHeader (line : List Char) : Bool :=
  let t := jsTrim line
  ciWordPre t (String.toList "education") ||
  ciWordPre t (String.toList "technical skills") ||
  ciWordPre t (String.toList "projects") ||
  ciWordPre t (String.toList "certifications") ||
  ciWordPre t (String.toList "certifications and achievements")

/-- `normalizeHeader(line)`: canonicalize recognized headers, otherwise keep
the trimmed line.  The certifications test `/^Certifications(?: and
Achievements)?\b/i` succeeds exactly when either alternative of the optional
group leaves a word boundary. -/
def normalizeHeader (line : List Char) : List Char :=
  let l := jsTrim line
  if ciWordPre l (String.toList "technical skills") then
    String.toList "Skills"
  else if ciWordPre l (String.toList "certifications") ||
      ciWordPre l (String.toList "certifications and achievements") then
    String.toList "Achievements"
  else l

/-- The section-accumulation loop of `parseTextToJson` over the lines after
the three header lines.  `cur` is the JS `currentSection` as an optional
pair of normalized title and collected body lines; a recognized header
flushes the current section and starts a new one, other lines are appended
to the current section or discarded when no section is open yet. -/
def parseSections : List (List Char) →
    Option (List Char × List (List Char)) → List Section
  | [], none => []
  | [], some (t, ls) => [{ title := t, lines := some ls }]
  | line :: rest, cur =>
    if isSectionHeader line then
      (match cur with
        | some (t, ls) => [{ title := t, lines := some ls }]
        | none => []) ++
        parseSections rest (some (normalizeHeader line, []))
    else
      match cur with
      | some (t, ls) => parseSections rest (some (t, ls ++ [line]))
      | none => parseSections rest none

/-- `parseTextToJson(text)`: name, location and contact line from the first
three lines (`?.trim() || ''` degrades a missing line to the empty string),
the contact fields from the three regex searches, and the remaining lines
grouped into sections. -/
def parseTextToJson (text : List Char) : ResumeRecord :=
  let lines := jsSplitLines text
  let name := jsTrim (lines.getD 0 [])
  let location := jsTrim (lines.getD 1 [])
  let contactLine := jsTrim (lines.getD 2 [])
  { name := name
    location := location
    contact :=
      { email := emailSearch contactLine
        phone := phoneSearch contactLine
        linkedin := linkedinSearch contactLine }
    sections := parseSections (lines.drop 3) none }

/-- The embedded fallback resume document hard-coded in `loadResumeData`. -/
def embeddedResumeText : List Char := String.toList
  ("RAKESH RAMKISHOR SINGH\nNavi Mumbai, IN\nrakeshsinghtcp@gmail.com • +91 7021134166 • LinkedIn: iamrakesh.codes\n\nEducation\nSmt. Indira Gandhi College of Engineering | Ghansoli (Dec 2020 - May 2024)\n- Bachelor of Engineering in CSE (IOT) • CGPA: 8.2\n\nTechnical Skills\nFrontend: HTML, CSS, JavaScript (ES6+), TypeScript, React.js, Next.js\nBackend & Databases: Node.js, Express.js, MongoDB, PostgreSQL\n\nProjects\nTimeline – Role-based Workspace Manager | Next.js, Socket.io, Node.js\n- Real-time presence tracking and analytics\n\nCertifications & Achievements\n- MongoDB Node.js Developer Path – MongoDB University (Jul 2025)")

/-!
## `src/utils/render.js` — createBox (manual fallback)
-/

/-- The wrapped content lines of `createBox`: split the content on
newlines, sanitize each line, keep blank lines (by the `!line.trim()` test)
as empty lines and wrap the rest.  `wrapText` is called there without its
third argument, so its `unicode` parameter is the falsy `undefined`. -/
def boxWrappedLines (content : List Char) (unicode : Bool)
    (contentWidth : Int) : List (List Char) :=
  ((jsSplitLines content).map (fun l => sanitizeLine l unicode)).flatMap
    fun line =>
      if (jsTrim line).isEmpty then [[]]
      else wrapText line contentWidth false

/-- `Math.max(20, Math.max(...wrapped.map(l => l.length)))`: the interior
(content-column) width of the manually drawn box.  `Math.max` of an empty
spread is `-Infinity`, which the outer `Math.max` lifts to 20 — the fold
with base 0 agrees, as lengths are nonnegative. -/
def boxWidth (wrapped : List (List Char)) : Nat :=
  Nat.max 20 ((wrapped.map List.length).foldr Nat.max 0)

/-- `pad(s)`: right-pad a line to the box width. -/
def boxPad (width : Nat) (s : List Char) : List Char :=
  s ++ List.replicate (width - s.length) ' '

/-- The manual (non-boxen) fallback of `createBox`, as the list of rendered
lines (the source joins them with `\n`): corner and rule characters chosen
by Unicode support, a two-space inner padding, one empty padding line above
and below the body. -/
def createBoxLines (content : List Char) (unicode : Bool)
    (contentWidth : Int) : List (List Char) :=
  let wrapped := boxWrappedLines content unicode contentWidth
  let tl := if unicode then '┌' else '+'
  let tr := if unicode then '┐' else '+'
  let bl := if unicode then '└' else '+'
  let br := if unicode then '┘' else '+'
  let h := if unicode then '─' else '-'
  let v := if unicode then '│' else '|'
  let width := boxWidth wrapped
  let top := tl :: (List.replicate (width + 4) h ++ [tr])
  let bottom := bl :: (List.replicate (width + 4) h ++ [br])
  let emptyLine := v :: (List.replicate (width + 4) ' ' ++ [v])
  let bodyLines := wrapped.map fun l =>
    v :: (' ' :: ' ' :: boxPad width l ++ [' ', ' ', v])
  top :: emptyLine :: (bodyLines ++ [emptyLine, bottom])

/-!
## `bin/resume.js` — section lookup and the projects command
-/

/-- `getSection(data, type)`: the first section whose lowercased title
contains `type`. -/
def getSection (data : ResumeRecord) (ty : List Char) : Option Section :=
  data.sections.find? fun s => listContains (toLowerList s.title) ty

/-- The find of `simpleCommands.projects` for a string query:
`section.projects.find((p, i) => p.name.toLowerCase().includes(query.toLowerCase()) || (i + 1).toString() === query)`. -/
def findProject (ps : List Project) (query : List Char) : Option Project :=
  findWithIdx
    (fun p i =>
      listContains (toLowerList p.name) (toLowerList query) ||
        (Nat.repr (i + 1)).toList = query)
    0 ps

/-- The project selected by `simpleCommands.projects` when invoked with a
string query: look up the projects section, bail out when it or its
`projects` array is missing, otherwise run the find above. -/
def projectsCommandSelect (data : ResumeRecord) (query : List Char) :
    Option Project :=
  match getSection data (String.toList "project") with
  | none => none
  | some s =>
    match s.projects with
    | none => none
    | some ps => findProject ps query

/-!
## `src/utils/json.js` — getByPath
-/

/-- A JS value as far as `getByPath` observes it. -/
inductive JSVal where
  | null : JSVal
  | undef : JSVal
  | bool : Bool → JSVal
  | num : Int → JSVal
  | str : List Char → JSVal
  | obj : List (List Char × JSVal) → JSVal
  | arr : List JSVal → JSVal

/-- JS loose `cur == null`: true exactly for `null` and `undefined`. -/
def JSVal.isNullish : JSVal → Bool
  | JSVal.null => true
  | JSVal.undef => true
  | _ => false

/-- Property read on an object: the value of the named property, or
`undefined` when absent. -/
def jsGetField (fields : List (List Char × JSVal)) (key : List Char) :
    JSVal :=
  match fields.find? (fun kv => kv.1 = key) with
  | some kv => kv.2
  | none => JSVal.undef

/-- A canonical array index: a digit string with no superfluous leading
zero. -/
def canonicalIndex (p : List Char) : Option Nat :=
  if !p.isEmpty && p.all Char.isDigit &&
      (p = ['0'] || p.headD '0' ≠ '0') then
    some (decValue p)
  else none

/-- `cur[p]` as `getByPath` uses it.  Objects give their property, arrays
and strings answer `length` and canonical indices, and every other property
read on a primitive yields `undefined` (`null`/`undefined` receivers are
unreachable: the caller's null check guards them). -/
def jsIndex (cur : JSVal) (p : List Char) : JSVal :=
  match cur with
  | JSVal.obj fields => jsGetField fields p
  | JSVal.arr xs =>
    if p = String.toList "length" then JSVal.num xs.length
    else
      match canonicalIndex p with
      | some i => xs.getD i JSVal.undef
      | none => JSVal.undef
  | JSVal.str s =>
    if p = String.toList "length" then JSVal.num s.length
    else
      match canonicalIndex p with
      | some i => if i < s.length then JSVal.str [s.getD i ' '] else JSVal.undef
      | none => JSVal.undef
  | _ => JSVal.undef

/-- The traversal loop of `getByPath`: before each property read the current
value is checked against `null`/`undefined` (JS `cur == null`) and the walk
answers `undefined`; the final value is returned as is. -/
def getByPathGo : JSVal → List (List Char) → JSVal
  | cur, [] => cur
  | cur, p :: ps =>
    if cur.isNullish then JSVal.undef
    else getByPathGo (jsIndex cur p) ps

/-- Worker for the global replace `pathExpr.replace(/\[(\d+)\]/g, '.$1')`:
rewrite each bracketed digit group to a dot-prefixed one, scanning left to
right.  The fuel argument only bounds the recursion (each step consumes at
least one character, so a fuel of the list length is always enough); it
keeps the definition structurally recursive and hence computable by the
kernel. -/
def normBracketsGo : Nat → List Char → List Char
  | 0, l => l
  | _, [] => []
  | fuel + 1, '[' :: rest =>
    let ds := rest.takeWhile Char.isDigit
    if !ds.isEmpty && (rest.drop ds.length).headD ' ' = ']' then
      '.' :: (ds ++ normBracketsGo fuel ((rest.drop ds.length).drop 1))
    else '[' :: normBracketsGo fuel rest
  | fuel + 1, c :: rest => c :: normBracketsGo fuel rest

/-- `pathExpr.replace(/\[(\d+)\]/g, '.$1')`. -/
def normBrackets (l : List Char) : List Char :=
  normBracketsGo l.length l

/-- `norm.split('.')`: split on every dot, keeping empty pieces. -/
def splitDot : List Char → List (List Char)
  | [] => [[]]
  | '.' :: rest => [] :: splitDot rest
  | c :: rest =>
    match splitDot rest with
    | t :: ts => (c :: t) :: ts
    | [] => [[c]]

/-- The parts of a path expression: normalize brackets, split on dots and
drop empty parts (`filter(Boolean)`). -/
def pathParts (pathExpr : List Char) : List (List Char) :=
  (splitDot (normBrackets pathExpr)).filter (fun t => !t.isEmpty)

/-- `getByPath(obj, pathExpr)`: the falsy empty path returns the object
itself, otherwise walk the parts. -/
def getByPath (obj : JSVal) (pathExpr : List Char) : JSVal :=
  if pathExpr.isEmpty then obj
  else getByPathGo obj (pathParts pathExpr)

/-!
## Helper lemmas
-/

theorem splitWsF_noSpace (l : List Char) : ∀ (sk : Bool) (acc : List Char),
    (∀ c ∈ acc, isSpaceChar c = false) →
    ∀ t ∈ splitWsF l sk acc, ∀ c ∈ t, isSpaceChar c = false := by
  induction l with
  | nil =>
    intro sk acc hacc t ht c hc
    cases sk with
    | true => simp [splitWsF] at ht; subst ht; simp at hc
    | false =>
      simp [splitWsF] at ht; subst ht
      exact hacc c (List.mem_reverse.mp hc)
  | cons d rest ih =>
    intro sk acc hacc t ht c hc
    by_cases hd : isSpaceChar d
    · cases sk with
      | true =>
        simp only [splitWsF, hd, if_pos] at ht
        exact ih true [] (by simp) t ht c hc
      | false =>
        simp only [splitWsF, hd, if_pos] at ht
        rcases List.mem_cons.mp ht with h | h
        · subst h; exact hacc c (List.mem_reverse.mp hc)
        · exact ih true [] (by simp) t h c hc
    · simp only [splitWsF, hd, if_neg, Bool.false_eq_true, not_false_iff,
        ite_false] at ht
      refine ih false (d :: acc) ?_ t ht c hc
      intro e he
      rcases List.mem_cons.mp he with h | h
      · subst h; simpa using hd
      · exact hacc e h

theorem splitWsF_nil (sk : Bool) (acc : List Char) :
    splitWsF [] sk acc = if sk then [[]] else [acc.reverse] := rfl

theorem splitWsF_cons_space {c : Char} (h : isSpaceChar c = true)
    (l acc : List Char) :
    splitWsF (c :: l) false acc = acc.reverse :: splitWsF l true [] := by
  simp [splitWsF, h]

theorem splitWsF_cons_space_skip {c : Char} (h : isSpaceChar c = true)
    (l acc : List Char) :
    splitWsF (c :: l) true acc = splitWsF l true [] := by
  simp [splitWsF, h]

theorem splitWsF_cons_nonspace {c : Char} (h : isSpaceChar c = false)
    (l acc : List Char) (sk : Bool) :
    splitWsF (c :: l) sk acc = splitWsF l false (c :: acc) := by
  cases sk <;> simp [splitWsF, h]

theorem splitWsF_skip_filter (b : List Char) :
    (splitWsF b true []).filter (fun t => !t.isEmpty) =
      (splitWsF b false []).filter (fun t => !t.isEmpty) := by
  cases b with
  | nil => simp [splitWsF_nil]
  | cons c rest =>
    by_cases hc : isSpaceChar c
    · rw [splitWsF_cons_space_skip hc, splitWsF_cons_space hc]
      simp
    · rw [splitWsF_cons_nonspace (by simpa using hc),
        splitWsF_cons_nonspace (by simpa using hc)]

theorem splitWsF_append_space (b : List Char) : ∀ (a acc : List Char),
    (splitWsF (a ++ ' ' :: b) false acc).filter (fun t => !t.isEmpty) =
      (splitWsF a false acc).filter (fun t => !t.isEmpty) ++
        (splitWsF b true []).filter (fun t => !t.isEmpty) := by
  intro a
  induction a with
  | nil =>
    intro acc
    rw [List.nil_append, splitWsF_cons_space (by simp [isSpaceChar]),
      splitWsF_nil]
    rw [show (acc.reverse :: splitWsF b true []) =
      [acc.reverse] ++ splitWsF b true [] from rfl, List.filter_append]
    simp
  | cons d a' ih =>
    intro acc
    by_cases hd : isSpaceChar d
    · rw [List.cons_append, splitWsF_cons_space hd, splitWsF_cons_space hd]
      rw [show (acc.reverse :: splitWsF (a' ++ ' ' :: b) true []) =
        [acc.reverse] ++ splitWsF (a' ++ ' ' :: b) true [] from rfl,
        List.filter_append]
      rw [show (acc.reverse :: splitWsF a' true []) =
        [acc.reverse] ++ splitWsF a' true [] from rfl, List.filter_append]
      rw [splitWsF_skip_filter (a' ++ ' ' :: b), ih [],
        splitWsF_skip_filter a', List.append_assoc]
    · rw [List.cons_append,
        splitWsF_cons_nonspace (by simpa using hd),
        splitWsF_cons_nonspace (by simpa using hd)]
      exact ih (d :: acc)

theorem jsWords_append_space (a b : List Char) :
    jsWords (a ++ ' ' :: b) = jsWords a ++ jsWords b := by
  unfold jsWords jsSplitWs
  rw [splitWsF_append_space b a [], splitWsF_skip_filter b]

theorem splitWsF_of_noSpace (w : List Char)
    (h : ∀ c ∈ w, isSpaceChar c = false) :
    ∀ acc, splitWsF w false acc = [acc.reverse ++ w] := by
  induction w with
  | nil => intro acc; simp [splitWsF_nil]
  | cons c w' ih =>
    intro acc
    have hc : isSpaceChar c = false := h c (by simp)
    rw [splitWsF_cons_nonspace hc]
    rw [ih (fun e he => h e (by simp [he])) (c :: acc)]
    simp

theorem jsWords_of_noSpace (w : List Char)
    (h : ∀ c ∈ w, isSpaceChar c = false) :
    jsWords w = if w.isEmpty then [] else [w] := by
  unfold jsWords jsSplitWs
  rw [splitWsF_of_noSpace w h []]
  cases w <;> simp

theorem wrapCoreGo_nil (width : Int) (cur : List Char) :
    wrapCoreGo width [] cur = if cur.isEmpty then [] else [cur] := rfl

theorem wrapCoreGo_cons_empty (width : Int) (w : List Char)
    (ws : List (List Char)) {cur : List Char} (h : cur.isEmpty = true) :
    wrapCoreGo width (w :: ws) cur = wrapCoreGo width ws w := by
  simp [wrapCoreGo, h]

theorem wrapCoreGo_cons_fit (width : Int) (w : List Char)
    (ws : List (List Char)) {cur : List Char} (h : cur.isEmpty = false)
    (hfit : ((cur.length + 1 + w.length : Int) ≤ width)) :
    wrapCoreGo width (w :: ws) cur =
      wrapCoreGo width ws (cur ++ ' ' :: w) := by
  simp [wrapCoreGo, h, hfit]

theorem wrapCoreGo_cons_push (width : Int) (w : List Char)
    (ws : List (List Char)) {cur : List Char} (h : cur.isEmpty = false)
    (hfit : ¬ ((cur.length + 1 + w.length : Int) ≤ width)) :
    wrapCoreGo width (w :: ws) cur = cur :: wrapCoreGo width ws w := by
  simp [wrapCoreGo, h, hfit]

theorem wrapCoreGo_words (width : Int) (ws : List (List Char)) :
    ∀ (cur : List Char),
    (∀ t ∈ ws, ∀ c ∈ t, isSpaceChar c = false) →
    (wrapCoreGo width ws cur).flatMap jsWords =
      jsWords cur ++ ws.filter (fun t => !t.isEmpty) := by
  induction ws with
  | nil =>
    intro cur _
    rw [wrapCoreGo_nil]
    by_cases hcur : cur.isEmpty
    · have : cur = [] := by cases cur <;> simp_all
      subst this
      simp [jsWords, jsSplitWs, splitWsF_nil]
    · simp [hcur]
  | cons w ws ih =>
    intro cur hws
    have hw : ∀ c ∈ w, isSpaceChar c = false := hws w (by simp)
    have hws' : ∀ t ∈ ws, ∀ c ∈ t, isSpaceChar c = false :=
      fun t ht => hws t (by simp [ht])
    by_cases hcur : cur.isEmpty
    · have hc : cur = [] := by cases cur <;> simp_all
      subst hc
      rw [wrapCoreGo_cons_empty width w ws (by simp)]
      rw [ih w hws', jsWords_of_noSpace w hw]
      have hnil : jsWords ([] : List Char) = [] := by
        simp [jsWords, jsSplitWs, splitWsF_nil]
      rw [hnil, List.filter_cons]
      by_cases hwe : w.isEmpty
      · simp [hwe]
      · simp [hwe]
    · have hcur' : cur.isEmpty = false := by simpa using hcur
      by_cases hfit : ((cur.length + 1 + w.length : Int) ≤ width)
      · rw [wrapCoreGo_cons_fit width w ws hcur' hfit]
        rw [ih (cur ++ ' ' :: w) hws', jsWords_append_space,
          jsWords_of_noSpace w hw, List.filter_cons]
        by_cases hwe : w.isEmpty
        · simp [hwe]
        · simp [hwe, List.append_assoc]
      · rw [wrapCoreGo_cons_push width w ws hcur' hfit, List.flatMap_cons]
        rw [ih w hws', jsWords_of_noSpace w hw, List.filter_cons]
        by_cases hwe : w.isEmpty
        · simp [hwe]
        · simp [hwe, List.append_assoc]

theorem wrapCoreGo_ne (width : Int) (ws : List (List Char)) :
    ∀ (cur : List Char) (l : List Char), l ∈ wrapCoreGo width ws cur →
      l ≠ [] := by
  induction ws with
  | nil =>
    intro cur l hl
    rw [wrapCoreGo_nil] at hl
    by_cases hcur : cur.isEmpty
    · simp [hcur] at hl
    · simp only [hcur, Bool.false_eq_true, not_false_iff, ite_false,
        List.mem_singleton] at hl
      intro hnil
      exact hcur (by rw [← hl, hnil]; rfl)
  | cons w ws ih =>
    intro cur l hl
    by_cases hcur : cur.isEmpty
    · rw [wrapCoreGo_cons_empty width w ws hcur] at hl
      exact ih w l hl
    · have hcur' : cur.isEmpty = false := by simpa using hcur
      by_cases hfit : ((cur.length + 1 + w.length : Int) ≤ width)
      · rw [wrapCoreGo_cons_fit width w ws hcur' hfit] at hl
        exact ih _ l hl
      · rw [wrapCoreGo_cons_push width w ws hcur' hfit,
          List.mem_cons] at hl
        rcases hl with h | h
        · intro hnil
          exact hcur (by rw [← h, hnil]; rfl)
        · exact ih w l h

theorem wrapCoreGo_head (width : Int) (ws : List (List Char)) :
    ∀ (cur : List Char),
    (∀ t ∈ ws, ∀ c ∈ t, isSpaceChar c = false) →
    (cur = [] ∨ ∃ d t, cur = d :: t ∧ isSpaceChar d = false) →
    ∀ l ∈ wrapCoreGo width ws cur,
      ∃ d t, l = d :: t ∧ isSpaceChar d = false := by
  induction ws with
  | nil =>
    intro cur _ hinv l hl
    rw [wrapCoreGo_nil] at hl
    by_cases hcur : cur.isEmpty
    · simp [hcur] at hl
    · simp only [hcur, Bool.false_eq_true, not_false_iff, ite_false,
        List.mem_singleton] at hl
      subst hl
      rcases hinv with h | h
      · rw [h] at hcur; exact absurd rfl hcur
      · exact h
  | cons w ws ih =>
    intro cur hws hinv l hl
    have hw : ∀ c ∈ w, isSpaceChar c = false := hws w (by simp)
    have hws' : ∀ t ∈ ws, ∀ c ∈ t, isSpaceChar c = false :=
      fun t ht => hws t (by simp [ht])
    have hwinv : w = [] ∨ ∃ d t, w = d :: t ∧ isSpaceChar d = false := by
      cases w with
      | nil => exact Or.inl rfl
      | cons d t => exact Or.inr ⟨d, t, rfl, hw d (by simp)⟩
    by_cases hcur : cur.isEmpty
    · rw [wrapCoreGo_cons_empty width w ws hcur] at hl
      exact ih w hws' hwinv l hl
    · have hcur' : cur.isEmpty = false := by simpa using hcur
      have hcurhead : ∃ d t, cur = d :: t ∧ isSpaceChar d = false := by
        rcases hinv with h | h
        · rw [h] at hcur'; simp at hcur'
        · exact h
      by_cases hfit : ((cur.length + 1 + w.length : Int) ≤ width)
      · rw [wrapCoreGo_cons_fit width w ws hcur' hfit] at hl
        refine ih (cur ++ ' ' :: w) hws' ?_ l hl
        rcases hcurhead with ⟨d, t, hdt, hd⟩
        exact Or.inr ⟨d, t ++ ' ' :: w, by rw [hdt]; rfl, hd⟩
      · rw [wrapCoreGo_cons_push width w ws hcur' hfit,
          List.mem_cons] at hl
        rcases hl with h | h
        · rw [h]; exact hcurhead
        · exact ih w hws' hwinv l h

theorem takeWhile_replicate_space (n : Nat) (l : List Char)
    (hl : ∃ d t, l = d :: t ∧ isSpaceChar d = false) :
    (List.replicate n ' ' ++ l).takeWhile isSpaceChar =
      List.replicate n ' ' := by
  induction n with
  | zero =>
    rcases hl with ⟨d, t, hdt, hd⟩
    rw [hdt]
    simp [List.takeWhile_cons, hd]
  | succ m ih =>
    rw [List.replicate_succ, List.cons_append, List.takeWhile_cons]
    simp only [show isSpaceChar ' ' = true from rfl, ite_true]
    rw [ih]

theorem parseSections_titles : ∀ (ls : List (List Char))
    (cur : Option (List Char × List (List Char))),
    (parseSections ls cur).map Section.title =
      (match cur with
        | some (t, _) => [t]
        | none => []) ++
        (ls.filter isSectionHeader).map normalizeHeader := by
  intro ls
  induction ls with
  | nil =>
    intro cur
    rcases cur with _ | ⟨t, body⟩ <;> simp [parseSections]
  | cons line rest ih =>
    intro cur
    by_cases hline : isSectionHeader line
    · rcases cur with _ | ⟨t, body⟩
      · simp only [parseSections, hline, if_pos, List.nil_append,
          List.filter_cons]
        rw [ih (some (normalizeHeader line, []))]
        simp [hline]
      · simp only [parseSections, hline, if_pos, List.filter_cons]
        rw [List.map_append, ih (some (normalizeHeader line, []))]
        simp [hline]
    · have hline' : isSectionHeader line = false := by simpa using hline
      rcases cur with _ | ⟨t, body⟩
      · simp only [parseSections, hline', Bool.false_eq_true, not_false_iff,
          ite_false]
        rw [ih none]
        simp [List.filter_cons, hline']
      · simp only [parseSections, hline', Bool.false_eq_true, not_false_iff,
          ite_false]
        rw [ih (some (t, body ++ [line]))]
        simp [List.filter_cons, hline']

theorem length_le_foldr_max (l : List (List Char)) :
    ∀ x ∈ l, x.length ≤ (l.map List.length).foldr Nat.max 0 := by
  induction l with
  | nil => intro x hx; simp at hx
  | cons y ys ih =>
    intro x hx
    rcases List.mem_cons.mp hx with h | h
    · subst h
      exact Nat.le_max_left _ _
    · exact Nat.le_trans (ih x h) (Nat.le_max_right _ _)

theorem map_id_of_mem {f : α → α} : ∀ (l : List α),
    (∀ x ∈ l, f x = x) → l.map f = l := by
  intro l
  induction l with
  | nil => intro _; rfl
  | cons x xs ih =>
    intro h
    simp only [List.map_cons]
    rw [h x (by simp), ih (fun y hy => h y (by simp [hy]))]

theorem sanChar_cases (c : Char) : sanChar c = c ∨ sanChar c = '-' := by
  unfold sanChar replBullet replDash replBox replDQuote replSQuote
  split_ifs <;> simp_all

theorem sanChar_dash : sanChar '-' = '-' := by decide

theorem sanChar_idem (c : Char) : sanChar (sanChar c) = sanChar c := by
  rcases sanChar_cases c with h | h
  · rw [h, h]
  · rw [h, sanChar_dash]

theorem replBullet_ascii (c : Char) (hc : c.toNat < 128) :
    replBullet c = c := by
  unfold replBullet
  split_ifs with h
  · subst h; exact absurd hc (by decide)
  · rfl

theorem replDash_ascii (c : Char) (hc : c.toNat < 128) : replDash c = c := by
  unfold replDash
  split_ifs with h
  · simp only [Bool.or_eq_true, decide_eq_true_eq] at h
    rcases h with h | h <;> (subst h; exact absurd hc (by decide))
  · rfl

theorem replBox_ascii (c : Char) (hc : c.toNat < 128) : replBox c = c := by
  unfold replBox
  split_ifs with h
  · simp only [Bool.or_eq_true, decide_eq_true_eq] at h
    rcases h with ((((h | h) | h) | h) | h) | h <;>
      (subst h; exact absurd hc (by decide))
  · rfl

theorem replDQuote_id (c : Char) : replDQuote c = c := by
  unfold replDQuote
  split_ifs with h
  · exact h.symm
  · rfl

theorem replSQuote_id (c : Char) : replSQuote c = c := by
  unfold replSQuote
  split_ifs with h
  · exact h.symm
  · rfl

theorem sanChar_ascii (c : Char) (hc : c.toNat < 128) : sanChar c = c := by
  unfold sanChar
  rw [replBullet_ascii c hc, replDash_ascii c hc, replBox_ascii c hc,
    replDQuote_id, replSQuote_id]

theorem sanitizeLine_eq_map (l : List Char) :
    sanitizeLine l false = l.map sanChar := by
  have h : ∀ m : List Char,
      ((((m.map replBullet).map replDash).map replBox).map
        replDQuote).map replSQuote = m.map sanChar := by
    intro m
    induction m with
    | nil => rfl
    | cons c t ih =>
      simp only [List.map_cons]
      rw [ih]
      rfl
  unfold sanitizeLine
  simp only [Bool.false_eq_true, ite_false]
  exact h l

/-!
## Claim theorems
-/

/-- C6: for every resume record whose projects section has a non-empty
projects list, the projects command invoked with the query string "1"
selects the project at index 0, regardless of any project's name: the find
predicate accepts position 0 because the query equals the one-based index
rendered as a string. -/
theorem c6_projects_numeric_query_first (data : ResumeRecord) (s : Section)
    (p : Project) (ps : List Project)
    (hs : getSection data (String.toList "project") = some s)
    (hp : s.projects = some (p :: ps)) :
    projectsCommandSelect data (String.toList "1") = some p := by
  have h1 : (decide ((Nat.repr (0 + 1)).toList = String.toList "1")) =
      true := by decide
  have hcond : (listContains (toLowerList p.name)
      (toLowerList (String.toList "1")) ||
      decide ((Nat.repr (0 + 1)).toList = String.toList "1")) = true := by
    rw [h1, Bool.or_true]
  unfold projectsCommandSelect
  simp only [hs, hp]
  unfold findProject findWithIdx
  split
  · rfl
  · rename_i hfalse
    exact absurd hcond hfalse

/-- Witness for C6 at a concrete one-project record. -/
theorem c6_witness :
    projectsCommandSelect
      { name := [], location := [], contact := ⟨none, none, none⟩,
        sections := [{ title := String.toList "Projects",
                       projects := some [{ name := String.toList "Timeline",
                                           subtitle := [], stack := [],
                                           highlights := [] }] }] }
      (String.toList "1") =
      some { name := String.toList "Timeline", subtitle := [], stack := [],
             highlights := [] } :=
  c6_projects_numeric_query_first
    { name := [], location := [], contact := ⟨none, none, none⟩,
      sections := [{ title := String.toList "Projects",
                     projects := some [{ name := String.toList "Timeline",
                                         subtitle := [], stack := [],
                                         highlights := [] }] }] }
    { title := String.toList "Projects",
      projects := some [{ name := String.toList "Timeline", subtitle := [],
                          stack := [], highlights := [] }] }
    { name := String.toList "Timeline", subtitle := [], stack := [],
      highlights := [] }
    []
    (by decide) (by decide)

/-- C8: sanitizeLine in non-Unicode mode is the identity on pure-ASCII lines
and is idempotent on every line. -/
theorem c8_sanitize_ascii_idempotent (line : List Char) :
    ((∀ c ∈ line, c.toNat < 128) → sanitizeLine line false = line) ∧
    sanitizeLine (sanitizeLine line false) false = sanitizeLine line false := by
  constructor
  · intro h
    rw [sanitizeLine_eq_map]
    exact map_id_of_mem line (fun c hc => sanChar_ascii c (h c hc))
  · rw [sanitizeLine_eq_map, sanitizeLine_eq_map]
    refine map_id_of_mem (line.map sanChar) ?_
    intro c hc
    rcases List.mem_map.mp hc with ⟨x, _, rfl⟩
    exact sanChar_idem x

/-- Witness for C8 on a concrete ASCII line. -/
theorem c8_witness :
    sanitizeLine (String.toList "resume - cli") false =
      String.toList "resume - cli" :=
  (c8_sanitize_ascii_idempotent (String.toList "resume - cli")).1 (by decide)

/-- C9: wrapCore preserves the word sequence of its input — the words of the
output lines, concatenated in order, are exactly the whitespace-split words
of the input — and every output line is non-empty. -/
theorem c9_wrapCore_preserves_words (text : List Char) (width : Int) :
    (wrapCore text width).flatMap jsWords = jsWords text ∧
    (wrapCore text width).all (fun l => !l.isEmpty) = true := by
  constructor
  · unfold wrapCore
    rw [wrapCoreGo_words width (jsSplitWs text) []
        (splitWsF_noSpace text false [] (by simp))]
    have hnil : jsWords ([] : List Char) = [] := by
      simp [jsWords, jsSplitWs, splitWsF_nil]
    rw [hnil, List.nil_append]
    rfl
  · rw [List.all_eq_true]
    intro l hl
    have hne := wrapCoreGo_ne width (jsSplitWs text) [] l hl
    cases l with
    | nil => exact absurd rfl hne
    | cons c t => rfl

/-- C10: getWidth caps the content width at 120, computing
`min(floor(terminalCols * percentage / 100), 120)` where the percentage
defaults to 95 whenever the width-perc flag is absent or does not parse to a
non-zero integer. -/
theorem c10_getWidth_capped (wp : Option (List Char)) (cols : Nat) :
    (getWidth wp cols).contentWidth ≤ 120 ∧
    (getWidth wp cols).contentWidth =
      min (Int.fdiv ((cols : Int) * specPercentage wp) 100) 120 :=
  ⟨min_le_right _ _, rfl⟩

/-- C2: for every input text with at least 3 lines whose third line matches
none of the three contact regexes, parseTextToJson sets name and location
from the trimmed first two lines and leaves every contact field null. -/
theorem c2_header_fields_null_contacts (text : List Char)
    (hlen : 3 ≤ (jsSplitLines text).length)
    (he : emailSearch (jsTrim ((jsSplitLines text).getD 2 [])) = none)
    (hp : phoneSearch (jsTrim ((jsSplitLines text).getD 2 [])) = none)
    (hl : linkedinSearch (jsTrim ((jsSplitLines text).getD 2 [])) = none) :
    (parseTextToJson text).name = jsTrim ((jsSplitLines text).getD 0 []) ∧
    (parseTextToJson text).location =
      jsTrim ((jsSplitLines text).getD 1 []) ∧
    (parseTextToJson text).contact = ⟨none, none, none⟩ := by
  refine ⟨rfl, rfl, ?_⟩
  show Contact.mk (emailSearch (jsTrim ((jsSplitLines text).getD 2 [])))
      (phoneSearch (jsTrim ((jsSplitLines text).getD 2 [])))
      (linkedinSearch (jsTrim ((jsSplitLines text).getD 2 []))) =
    Contact.mk none none none
  rw [he, hp, hl]

/-- Witness for C2 on a concrete three-line text with no contact matches. -/
theorem c2_witness :
    (parseTextToJson (String.toList "John Doe\nBerlin\nno contacts at all")).name =
      jsTrim ((jsSplitLines
        (String.toList "John Doe\nBerlin\nno contacts at all")).getD 0 []) ∧
    (parseTextToJson
        (String.toList "John Doe\nBerlin\nno contacts at all")).location =
      jsTrim ((jsSplitLines
        (String.toList "John Doe\nBerlin\nno contacts at all")).getD 1 []) ∧
    (parseTextToJson
        (String.toList "John Doe\nBerlin\nno contacts at all")).contact =
      ⟨none, none, none⟩ :=
  c2_header_fields_null_contacts
    (String.toList "John Doe\nBerlin\nno contacts at all")
    (by decide) (by decide) (by decide) (by decide)

/-- C3: parseTextToJson is total and degrades instead of failing — the empty
string gives the all-empty record, inputs with fewer than 3 lines give null
contacts and no sections, and the sections produced are exactly one per
recognized header line of the post-header text, in source order (so lines
before the first recognized header contribute no section). -/
theorem c3_parser_degrades_and_orders (text : List Char) :
    parseTextToJson [] =
      { name := [], location := [], contact := ⟨none, none, none⟩,
        sections := [] } ∧
    ((jsSplitLines text).length ≤ 2 →
      (parseTextToJson text).contact = ⟨none, none, none⟩ ∧
      (parseTextToJson text).sections = []) ∧
    (parseTextToJson text).sections.map Section.title =
      (((jsSplitLines text).drop 3).filter isSectionHeader).map
        normalizeHeader := by
  refine ⟨by rfl, ?_, ?_⟩
  · intro hle
    have hgd : (jsSplitLines text).getD 2 [] = [] :=
      List.getD_eq_default _ _ (by omega)
    have hdrop : (jsSplitLines text).drop 3 = [] :=
      List.drop_eq_nil_of_le (by omega)
    constructor
    · show Contact.mk (emailSearch (jsTrim ((jsSplitLines text).getD 2 [])))
          (phoneSearch (jsTrim ((jsSplitLines text).getD 2 [])))
          (linkedinSearch (jsTrim ((jsSplitLines text).getD 2 []))) =
        Contact.mk none none none
      rw [hgd]
      rfl
    · show parseSections ((jsSplitLines text).drop 3) none = []
      rw [hdrop]
      rfl
  · show (parseSections ((jsSplitLines text).drop 3) none).map
        Section.title = _
    rw [parseSections_titles ((jsSplitLines text).drop 3) none]
    rfl

/-- Witness for C3's degradation clause on a concrete two-line text. -/
theorem c3_witness :
    (parseTextToJson (String.toList "OnlyName\nCity")).contact =
      ⟨none, none, none⟩ ∧
    (parseTextToJson (String.toList "OnlyName\nCity")).sections = [] :=
  (c3_parser_degrades_and_orders
    (String.toList "OnlyName\nCity")).2.1 (by decide)

/-- C7: getByPath reads `contact.email`, and any traversal that meets a
null/undefined intermediate value, or a missing key, yields `undefined`
instead of failing. -/
theorem c7_getByPath_email_and_missing (r c : List (List Char × JSVal)) :
    (jsGetField r (String.toList "contact") = JSVal.obj c →
      jsGetField c (String.toList "email") =
        JSVal.str (String.toList "a@b.com") →
      getByPath (JSVal.obj r) (String.toList "contact.email") =
        JSVal.str (String.toList "a@b.com")) ∧
    (∀ (cur : JSVal) (ps : List (List Char)), cur.isNullish = true →
      ps ≠ [] → getByPathGo cur ps = JSVal.undef) ∧
    (∀ (fields : List (List Char × JSVal)) (p : List Char)
        (ps : List (List Char)),
      fields.find? (fun kv => kv.1 = p) = none →
      getByPathGo (JSVal.obj fields) (p :: ps) = JSVal.undef) := by
  have hundef : ∀ (ps : List (List Char)),
      getByPathGo JSVal.undef ps = JSVal.undef := by
    intro ps
    cases ps with
    | nil => rfl
    | cons q qs => rfl
  refine ⟨?_, ?_, ?_⟩
  · intro h1 h2
    have hparts : pathParts (String.toList "contact.email") =
        [String.toList "contact", String.toList "email"] := by decide
    unfold getByPath
    rw [if_neg (by decide), hparts]
    show getByPathGo (jsIndex (JSVal.obj r) (String.toList "contact"))
      [String.toList "email"] = _
    show getByPathGo (jsGetField r (String.toList "contact"))
      [String.toList "email"] = _
    rw [h1]
    show getByPathGo (jsGetField c (String.toList "email")) [] = _
    rw [h2]
    rfl
  · intro cur ps hnull hne
    cases ps with
    | nil => exact absurd rfl hne
    | cons q qs =>
      show (if cur.isNullish then JSVal.undef
        else getByPathGo (jsIndex cur q) qs) = JSVal.undef
      rw [if_pos hnull]
  · intro fields p ps hfind
    have hidx : jsIndex (JSVal.obj fields) p = JSVal.undef := by
      show jsGetField fields p = JSVal.undef
      unfold jsGetField
      rw [hfind]
    show (if (JSVal.obj fields).isNullish then JSVal.undef
      else getByPathGo (jsIndex (JSVal.obj fields) p) ps) = JSVal.undef
    rw [if_neg (by simp [JSVal.isNullish]), hidx]
    exact hundef ps

/-- Witness for C7 at a concrete record and concrete degenerate lookups. -/
theorem c7_witness :
    getByPath
      (JSVal.obj [(String.toList "contact",
        JSVal.obj [(String.toList "email",
          JSVal.str (String.toList "a@b.com"))])])
      (String.toList "contact.email") =
      JSVal.str (String.toList "a@b.com") ∧
    getByPathGo JSVal.null [String.toList "x"] = JSVal.undef ∧
    getByPathGo (JSVal.obj []) [String.toList "x"] = JSVal.undef :=
  ⟨(c7_getByPath_email_and_missing
      [(String.toList "contact",
        JSVal.obj [(String.toList "email",
          JSVal.str (String.toList "a@b.com"))])]
      [(String.toList "email", JSVal.str (String.toList "a@b.com"))]).1
      rfl rfl,
   (c7_getByPath_email_and_missing [] []).2.1 JSVal.null
      [String.toList "x"] rfl (by simp),
   (c7_getByPath_email_and_missing [] []).2.2 [] (String.toList "x") []
      rfl⟩

theorem mem_mapWithIndexGo {f : Nat → α → β} :
    ∀ (xs : List α) (j : Nat) (l : β), l ∈ mapWithIndexGo f j xs →
      ∃ i x, x ∈ xs ∧ l = f (j + i) x := by
  intro xs
  induction xs with
  | nil =>
    intro j l hl
    simp [mapWithIndexGo] at hl
  | cons x xs ih =>
    intro j l hl
    rw [show mapWithIndexGo f j (x :: xs) =
      f j x :: mapWithIndexGo f (j + 1) xs from rfl, List.mem_cons] at hl
    rcases hl with h | h
    · exact ⟨0, x, by simp, by simpa using h⟩
    · rcases ih (j + 1) l h with ⟨i, y, hy, hly⟩
      refine ⟨i + 1, y, by simp [hy], ?_⟩
      rw [hly]
      congr 1
      omega

/-- C4: wrapping a line recognized as a bullet gives continuation lines
(everything after the first output line) that begin with exactly as many
spaces as the bullet prefix is long — the leading spaces plus the bullet
character plus one space, i.e. `sp.length + 2`. -/
theorem c4_bullet_hanging_indent (text : List Char) (width : Int)
    (unicode : Bool) (sp : List Char) (b : Char) (rest : List Char)
    (hb : bulletDecomp text = some (sp, b, rest)) :
    ∀ l ∈ (wrapText text width unicode).tail,
      l.takeWhile isSpaceChar = List.replicate (sp.length + 2) ' ' := by
  intro l hl
  have hwt : wrapText text width unicode =
      mapWithIndex
        (fun index line =>
          if index = 0 then
            (sp ++ [if unicode then '•' else '-', ' ']) ++ line
          else
            List.replicate (sp ++ [if unicode then '•' else '-', ' ']).length
              ' ' ++ line)
        (wrapCore rest
          (width - ((sp ++ [if unicode then '•' else '-', ' ']).length : Int))) := by
    unfold wrapText
    rw [hb]
  rw [hwt] at hl
  cases hL : wrapCore rest
      (width - ((sp ++ [if unicode then '•' else '-', ' ']).length : Int)) with
  | nil =>
    rw [hL] at hl
    simp [mapWithIndex, mapWithIndexGo] at hl
  | cons x xs =>
    rw [hL] at hl
    have ht : l ∈ mapWithIndexGo
        (fun index line =>
          if index = 0 then
            (sp ++ [if unicode then '•' else '-', ' ']) ++ line
          else
            List.replicate (sp ++ [if unicode then '•' else '-', ' ']).length
              ' ' ++ line) 1 xs := hl
    rcases mem_mapWithIndexGo xs 1 l ht with ⟨i, y, hy, hly⟩
    have hyw : y ∈ wrapCore rest
        (width - ((sp ++ [if unicode then '•' else '-', ' ']).length : Int)) := by
      rw [hL]
      exact List.mem_cons_of_mem x hy
    have hyhead : ∃ d t, y = d :: t ∧ isSpaceChar d = false := by
      refine wrapCoreGo_head _ (jsSplitWs rest) []
        (splitWsF_noSpace rest false [] (by simp)) (Or.inl rfl) y hyw
    have hne : ¬ ((1 + i) = 0) := by omega
    simp only [hne, ite_false, if_neg] at hly
    rw [hly, takeWhile_replicate_space _ y hyhead]
    congr 1
    simp

/-- Witness for C4 on a concrete bullet line that wraps to two lines. -/
theorem c4_witness :
    (String.toList "  bbbb").takeWhile isSpaceChar =
      List.replicate 2 ' ' :=
  c4_bullet_hanging_indent (String.toList "- aaaa bbbb") 6 false []
    '-' (String.toList "aaaa bbbb") (by decide)
    (String.toList "  bbbb") (by decide)

/-- C5: in the manual fallback of createBox, the interior width of the
drawn border is the maximum of 20 and the longest wrapped content line —
hence at least 20 for every content — and every rendered border line has
exactly that interior width plus the two border characters and four padding
columns. -/
theorem c5_box_interior_width (content : List Char) (unicode : Bool)
    (cw : Int) :
    20 ≤ boxWidth (boxWrappedLines content unicode cw) ∧
    boxWidth (boxWrappedLines content unicode cw) =
      Nat.max 20 (((boxWrappedLines content unicode cw).map
        List.length).foldr Nat.max 0) ∧
    (createBoxLines content unicode cw).all
      (fun l =>
        l.length == boxWidth (boxWrappedLines content unicode cw) + 6) =
      true := by
  refine ⟨Nat.le_max_left _ _, rfl, ?_⟩
  rw [List.all_eq_true]
  intro l hl
  unfold createBoxLines at hl
  simp only [List.mem_cons, List.mem_append, List.mem_map,
    List.not_mem_nil, or_false] at hl
  have hpad : ∀ x ∈ boxWrappedLines content unicode cw,
      (boxPad (boxWidth (boxWrappedLines content unicode cw)) x).length =
        boxWidth (boxWrappedLines content unicode cw) := by
    intro x hx
    have hxw : x.length ≤ boxWidth (boxWrappedLines content unicode cw) :=
      Nat.le_trans (length_le_foldr_max _ x hx) (Nat.le_max_right _ _)
    unfold boxPad
    simp only [List.length_append, List.length_replicate]
    omega
  rcases hl with h | h | ⟨x, hx, h⟩ | h | h
  · subst h
    simp only [beq_iff_eq, List.length_cons, List.length_append,
      List.length_replicate, List.length_nil]
  · subst h
    simp only [beq_iff_eq, List.length_cons, List.length_append,
      List.length_replicate, List.length_nil]
  · subst h
    simp only [beq_iff_eq, List.length_cons, List.length_append,
      List.length_replicate, List.length_nil]
    rw [hpad x hx]
  · subst h
    simp only [beq_iff_eq, List.length_cons, List.length_append,
      List.length_replicate, List.length_nil]
  · subst h
    simp only [beq_iff_eq, List.length_cons, List.length_append,
      List.length_replicate, List.length_nil]

set_option maxRecDepth 4000 in
/-- C1 counterexample: on the embedded default document, parseTextToJson
produces no section carrying any of the four tagged payload variants — in
particular no `{title, items}` education section exists, so the record does
not contain one section of each variant as claimed.  (The text parser stores
each section's body under `lines` instead.) -/
theorem c1_counterexample :
    ¬ ((∃ s ∈ (parseTextToJson embeddedResumeText).sections,
          s.items.isSome = true) ∧
       (∃ s ∈ (parseTextToJson embeddedResumeText).sections,
          s.categories.isSome = true) ∧
       (∃ s ∈ (parseTextToJson embeddedResumeText).sections,
          s.projects.isSome = true) ∧
       (∃ s ∈ (parseTextToJson embeddedResumeText).sections,
          s.achievements.isSome = true)) := by decide

set_option maxRecDepth 4000 in
/-- C1 amended: parseTextToJson applied to the embedded default document
yields exactly four sections, titled for the four variants' keywords —
Education, Skills, Projects, Achievements, in source order — but every one
of them carries its raw body lines in the `lines` field; none of the
`items`/`categories`/`projects`/`achievements` payloads of the tagged
variants is populated by the text parser. -/
theorem c1_amended_lines_sections :
    (parseTextToJson embeddedResumeText).sections.map Section.title =
      [String.toList "Education", String.toList "Skills",
       String.toList "Projects", String.toList "Achievements"] ∧
    (parseTextToJson embeddedResumeText).sections.all
      (fun s => s.lines.isSome && s.items.isNone && s.categories.isNone &&
        s.projects.isNone && s.achievements.isNone) = true := by
  constructor
  · decide
  · decide

end ResumeCli
